import Mathlib

/-!
Shallow embedding of the analytics pipeline of `python_analytics/analyze_results.py`
(class `HFTAnalyzer`): data loading guards, preprocessing (`preprocess_data`),
and the performance-metric computations (`calculate_performance_metrics`).

Numeric table cells are modelled as exact rationals.  The operations of the
source that can produce IEEE-754 special values (`pct_change` and the drawdown
ratio, both of which divide by a possibly-zero value under suppressed numpy
warnings) are modelled by the type `FVal`, a rational together with the three
special values `+inf`, `-inf` and `NaN`, with the division, minimum and
comparison rules of IEEE-754 / pandas (`min` skips NaN as `Series.min` does
with its default `skipna=True`; comparisons with NaN are false).
-/

set_option maxHeartbeats 1000000

namespace DAVINCI

/-- A float value as produced by the pandas computations in the source:
either an (exactly represented) finite value, `+inf`, `-inf`, or `NaN`. -/
inductive FVal where
  | fin (q : ℚ)
  | pinf
  | minf
  | nan
  deriving DecidableEq, Repr

/-- IEEE division `n / d` as numpy performs it with warnings suppressed:
finite quotient for `d ≠ 0`; for `d = 0`: `0/0 = NaN`, `n/0 = ±inf`
according to the sign of `n`. -/
def fdiv (n d : ℚ) : FVal :=
  if d ≠ 0 then .fin (n / d) else
  if n = 0 then .nan else
  if 0 < n then .pinf else .minf

/-- Binary minimum with pandas `skipna=True` semantics: `NaN` acts as the
identity, `-inf` is absorbing, finite values compare as rationals. -/
def Fmin : FVal → FVal → FVal
  | .nan, b => b
  | a, .nan => a
  | .minf, _ => .minf
  | _, .minf => .minf
  | .pinf, b => b
  | a, .pinf => a
  | .fin a, .fin b => .fin (min a b)

/-- IEEE `≤` comparison: any comparison involving `NaN` is false;
`-inf` is below and `+inf` above every non-NaN value. -/
def Fle : FVal → FVal → Bool
  | .nan, _ => false
  | _, .nan => false
  | .minf, _ => true
  | _, .minf => false
  | _, .pinf => true
  | .pinf, _ => false
  | .fin a, .fin b => decide (a ≤ b)

/-- `Series.min()` of the source (default `skipna=True`): fold of `Fmin`
with `NaN` as the unit, so an empty or all-NaN series yields `NaN`. -/
def minSkip (l : List FVal) : FVal := l.foldr Fmin .nan

/-- Prefix sums starting from accumulator `s`; `cumsum s l` is the list of
partial sums `s + l[0]`, `s + l[0] + l[1]`, ... -/
def cumsumFrom (s : ℚ) : List ℚ → List ℚ
  | [] => []
  | x :: xs => (s + x) :: cumsumFrom (s + x) xs

/-- `pnl_data['TotalPnL'].cumsum()` of `preprocess_data` (line 86): the
running sum of the `TotalPnL` column. -/
def cumsum (l : List ℚ) : List ℚ := cumsumFrom 0 l

/-- Drawdown entries over a cumulative series, carrying the running maximum
`m` of the elements already seen: for each element `a` the running maximum
becomes `max m a` and the entry is `(a - max m a) / (max m a)` with IEEE
division.  This is `(cumulative - cumulative.expanding().max()) /
cumulative.expanding().max()` of `calculate_performance_metrics`
(lines 112-114). -/
def ddAuxC (m : ℚ) : List ℚ → List FVal
  | [] => []
  | a :: l => fdiv (a - max m a) (max m a) :: ddAuxC (max m a) l

/-- The drawdown series of a cumulative-PnL list (lines 112-114 of the
source): `drawdown[i] = (c[i] - running_max[i]) / running_max[i]` where
`running_max[i] = max(c[0..i])`. -/
def ddOf : List ℚ → List FVal
  | [] => []
  | a :: l => fdiv (a - a) a :: ddAuxC a l

/-- Drawdown entries computed directly from the `TotalPnL` increments,
carrying the running cumulative sum `s` and running maximum `m`;
used to relate `ddOf ∘ cumsum` to a single recursion for proofs. -/
def ddAuxT (s m : ℚ) : List ℚ → List FVal
  | [] => []
  | x :: xs => fdiv (s + x - max m (s + x)) (max m (s + x)) :: ddAuxT (s + x) (max m (s + x)) xs

/-- `MaxDrawdown` of the source (line 115) as a function of the `TotalPnL`
column: the skip-NaN minimum of the drawdown series of the cumulative sums. -/
def maxDrawdownT (t : List ℚ) : FVal := minSkip (ddOf (cumsum t))

theorem ddAuxC_cumsumFrom (xs : List ℚ) : ∀ s m, ddAuxC m (cumsumFrom s xs) = ddAuxT s m xs := by
  induction xs with
  | nil => intro s m; rfl
  | cons x xs ih => intro s m; simp only [cumsumFrom, ddAuxC, ddAuxT, ih]

theorem ddOf_cumsum_cons (x : ℚ) (xs : List ℚ) :
    ddOf (cumsum (x :: xs)) = fdiv 0 x :: ddAuxT x x xs := by
  simp only [cumsum, cumsumFrom, ddOf, ddAuxC_cumsumFrom, zero_add, sub_self]

/-- The consecutive `(prev, cur)` pairs of a column, in order: the raw
material of `Series.pct_change()`. -/
def pairsOf (l : List ℚ) : List (ℚ × ℚ) := l.zip l.tail

/-- The percentage change of one `(prev, cur)` pair, with IEEE division:
`(cur - prev) / prev`. -/
def pcF (pc : ℚ × ℚ) : FVal := fdiv (pc.2 - pc.1) pc.1

/-- `pnl_data['TotalPnL'].pct_change()` of the source (line 118), minus the
leading `NaN` that pandas puts at position 0 (which `.dropna()` removes
unconditionally): entry `i` is `(x[i+1] - x[i]) / x[i]` with IEEE division,
so a zero prior value yields `NaN` (current also zero) or `±inf`. -/
def pctChanges (l : List ℚ) : List FVal := (pairsOf l).map pcF

/-- `.dropna()` applied to the percentage changes (line 118): only `NaN`
entries are removed; `±inf` entries remain. -/
def returnsOf (l : List ℚ) : List FVal :=
  (pctChanges l).filter (fun e => e ≠ .nan)

/-- The finite values of a float series, in order. -/
def finVals (l : List FVal) : List ℚ :=
  l.filterMap (fun e => match e with | .fin q => some q | _ => none)

/-- Whether a float series contains an infinity (which poisons a pandas
mean/std to `±inf`/`NaN`). -/
def hasInf (l : List FVal) : Bool :=
  l.any (fun e => e = .pinf ∨ e = .minf)

/-- Arithmetic mean of a rational list (`Series.mean()` on an all-finite
series); junk value `0` on the empty list, which the source never hits on
the guarded paths. -/
def mean (l : List ℚ) : ℚ := l.sum / l.length

/-- Sample variance with `ddof = 1` (the square of `Series.std()` on an
all-finite series of length ≥ 2). -/
def sampleVar (l : List ℚ) : ℚ :=
  (l.map (fun x => (x - mean l) ^ 2)).sum / ((l.length : ℚ) - 1)

/-- Encoding of the `Volatility` metric of the source (line 119),
`returns.std() * sqrt(252)`: the real value of the metric is
`sqrt (252 * v)` when this function returns `fin v` (so `fin 0` encodes the
real value `0`), and `NaN` when it returns `nan`.  `Series.std()` is `NaN`
when an infinity is present or when fewer than two values remain after
`dropna` (sample std with `ddof = 1`); multiplying by `sqrt 252` preserves
`NaN`.  The encoding `v ↦ sqrt (252 * v)` is injective on the nonnegative
rationals, so equalities of encodings are equalities of the real metric. -/
def volE (t : List ℚ) : FVal :=
  let r := returnsOf t
  if hasInf r then .nan else
  if (finVals r).length < 2 then .nan else
  .fin (sampleVar (finVals r))

/-- The defined percentage change of one `(prev, cur)` pair: the exact
quotient when the prior value is nonzero, nothing otherwise. -/
def pcDef (pc : ℚ × ℚ) : Option ℚ :=
  if pc.1 = 0 then none else some ((pc.2 - pc.1) / pc.1)

/-- Modelled from the spec's words, for comparison with `volE`: the defined
period-over-period percentage changes of `total_pnl`, i.e. the changes whose
prior value is nonzero. -/
def definedPcts (l : List ℚ) : List ℚ := (pairsOf l).filterMap pcDef

/-- Modelled from the spec's words, for comparison with `volE`, in the same
`fin v ↦ sqrt (252 * v)` encoding: the sample standard deviation of the
defined percentage changes times `sqrt 252` when at least two of them exist,
and `0` (encoded `fin 0`) otherwise. -/
def specVolE (t : List ℚ) : FVal :=
  if 2 ≤ (definedPcts t).length then .fin (sampleVar (definedPcts t)) else .fin 0

/-- Encoding of the `SharpeRatio` metric of the source (lines 122-125):
`szero` encodes the literal `0` assigned when `Volatility > 0` fails
(including a `NaN` volatility, for which the float comparison is false);
`sdiv m v` encodes the real value `(m * 252) / sqrt (252 * v)`, i.e.
`(returns.mean() * 252) / Volatility` with volatility encoding `fin v`. -/
inductive SharpeVal where
  | szero
  | sdiv (m v : ℚ)
  deriving DecidableEq, Repr

/-- `SharpeRatio` of the source (lines 122-125): when the computed
volatility is finite and positive (`fin v` with `0 < v`, i.e. the real
volatility `sqrt (252 * v)` is `> 0`), the ratio `(returns.mean() * 252) /
Volatility`; else the literal `0`. -/
def sharpeE (t : List ℚ) : SharpeVal :=
  match volE t with
  | .fin v => if 0 < v then .sdiv (mean (finVals (returnsOf t))) v else .szero
  | _ => .szero

/-- Modelled from the spec's words, for comparison with `sharpeE`: the mean
over the **defined** percentage changes, divided by the same volatility
metric, in the same encoding. -/
def specSharpeE (t : List ℚ) : SharpeVal :=
  match volE t with
  | .fin v => if 0 < v then .sdiv (mean (definedPcts t)) v else .szero
  | _ => .szero

/-- `Series.max()` of a nonempty numeric column; junk value `0` on the
empty list (where the source would return `NaN`, a case the claims under
verification do not touch). -/
def maxQ : List ℚ → ℚ
  | [] => 0
  | a :: l => l.foldl max a

/-- `Series.min()` of a nonempty numeric column; junk value `0` on the
empty list. -/
def minQ : List ℚ → ℚ
  | [] => 0
  | a :: l => l.foldl min a

/-- `.iloc[-1]` of a nonempty column; junk value `0` on the empty list
(where the source raises, a case the claims under verification do not
touch). -/
def lastQ (l : List ℚ) : ℚ := l.getLastD 0

/-- A cell of the `Side` column.  Loaded as a string; `preprocess_data`
(line 97) maps it through `{'BUY': 1, 'SELL': -1}`, which sends any value
not literally in that dictionary — including the integers produced by a
previous application of the map — to a missing value (`NaN`). -/
inductive SideVal where
  | str (s : String)
  | num (n : ℤ)
  | missing
  deriving DecidableEq, Repr

/-- `Side.map({'BUY': 1, 'SELL': -1})` of line 97 of the source. -/
def sideMap : SideVal → SideVal
  | .str "BUY" => .num 1
  | .str "SELL" => .num (-1)
  | _ => .missing

/-- One row of the trade table: `Price`, `Quantity`, `Side`, and the
derived `TradeValue` column (absent before preprocessing). -/
structure TradeRow where
  price : ℚ
  qty : ℚ
  side : SideVal
  tradeValue : Option ℚ
  deriving DecidableEq, Repr

/-- The trade table: whether a `Timestamp` column is present, whether the
table has been re-indexed by timestamp, and the rows in file order.
Timestamp values are not modelled because no claim under verification
depends on them, only on the presence of the column (which the source
consumes when it sets the index). -/
structure TradeTable where
  hasTsCol : Bool
  indexed : Bool
  rows : List TradeRow
  deriving DecidableEq, Repr

/-- The per-row part of trade preprocessing: `TradeValue = Price *
Quantity` (line 96) and the `Side` dictionary map (line 97). -/
def tradeUpd (r : TradeRow) : TradeRow :=
  { price := r.price
    qty := r.qty
    side := sideMap r.side
    tradeValue := some (r.price * r.qty) }

/-- The trade-table half of `preprocess_data` (lines 89-97): re-index by
`Timestamp` when that column is present (consuming it), set
`TradeValue = Price * Quantity`, and map `Side` through the BUY/SELL
dictionary. -/
def preTrade (T : TradeTable) : TradeTable :=
  { hasTsCol := false
    indexed := T.indexed || T.hasTsCol
    rows := T.rows.map tradeUpd }

/-- One row of the PnL table: `TotalPnL`, `DailyPnL` (possibly missing
before `fillna`), and the derived `CumulativePnL` column (absent before
preprocessing). -/
structure PnLRow where
  total : ℚ
  daily : Option ℚ
  cum : Option ℚ
  deriving DecidableEq, Repr

/-- The PnL table, with the same `Timestamp` modelling as `TradeTable`. -/
structure PnLTable where
  hasTsCol : Bool
  indexed : Bool
  rows : List PnLRow
  deriving DecidableEq, Repr

/-- The per-row part of PnL preprocessing applied at cumulative value `c`:
keep `TotalPnL`, set `CumulativePnL` (line 86), and `DailyPnL.fillna(0)`
(line 87). -/
def pnlUpd (r : PnLRow) (c : ℚ) : PnLRow :=
  { total := r.total
    daily := some (r.daily.getD 0)
    cum := some c }

/-- The PnL-table half of `preprocess_data` (lines 79-87): re-index by
`Timestamp` when present, set `CumulativePnL = TotalPnL.cumsum()`, and
`DailyPnL = DailyPnL.fillna(0)`. -/
def prePnL (P : PnLTable) : PnLTable :=
  { hasTsCol := false
    indexed := P.indexed || P.hasTsCol
    rows := List.zipWith pnlUpd P.rows (cumsum (P.rows.map (·.total))) }

/-- The order-book table, loaded by `load_data` but never used by
`preprocess_data` or `calculate_performance_metrics`; its contents are
irrelevant to every claim, so rows are left opaque. -/
structure OrderBookTable where
  rowCount : ℕ
  deriving DecidableEq, Repr

/-- A value of the metrics dictionary `performance_metrics`: either a
float-series value or the Sharpe-ratio encoding. -/
inductive MVal where
  | vF (x : FVal)
  | vS (s : SharpeVal)
  deriving DecidableEq, Repr

/-- `len(trade_data)` (line 129). -/
def totalTrades (T : TradeTable) : ℕ := T.rows.length

/-- `len(trade_data[trade_data['Side'] == 1])` (line 130). -/
def buyTrades (T : TradeTable) : ℕ :=
  T.rows.countP (fun r => r.side = SideVal.num 1)

/-- `len(trade_data[trade_data['Side'] == -1])` (line 131). -/
def sellTrades (T : TradeTable) : ℕ :=
  T.rows.countP (fun r => r.side = SideVal.num (-1))

/-- The `CumulativePnL` column of a (preprocessed) PnL table; reading the
column of an unpreprocessed table (where the source would raise a
`KeyError`) yields junk `0` cells. -/
def cumColumn (P : PnLTable) : List ℚ := P.rows.map (fun r => r.cum.getD 0)

/-- The `TotalPnL` column. -/
def totalColumn (P : PnLTable) : List ℚ := P.rows.map (·.total)

/-- The PnL-derived entries of `performance_metrics`, in the insertion
order of `calculate_performance_metrics` (lines 105-125). -/
def pnlEntries (P : PnLTable) : List (String × MVal) :=
  [("TotalPnL", .vF (.fin (lastQ (totalColumn P)))),
   ("MaxPnL", .vF (.fin (maxQ (totalColumn P)))),
   ("MinPnL", .vF (.fin (minQ (totalColumn P)))),
   ("MaxDrawdown", .vF (minSkip (ddOf (cumColumn P)))),
   ("Volatility", .vF (volE (totalColumn P))),
   ("SharpeRatio", .vS (sharpeE (totalColumn P)))]

/-- The trade-derived entries of `performance_metrics`, in the insertion
order of `calculate_performance_metrics` (lines 127-139). -/
def tradeEntries (T : TradeTable) : List (String × MVal) :=
  [("TotalTrades", .vF (.fin (totalTrades T))),
   ("BuyTrades", .vF (.fin (buyTrades T))),
   ("SellTrades", .vF (.fin (sellTrades T))),
   ("TotalVolume", .vF (.fin (T.rows.map (·.qty)).sum)),
   ("AvgTradeSize", .vF (.fin (mean (T.rows.map (·.qty))))),
   ("AvgTradePrice", .vF (.fin (mean (T.rows.map (·.price))))),
   ("PriceRange", .vF (.fin (maxQ (T.rows.map (·.price)) - minQ (T.rows.map (·.price)))))]

/-- `calculate_performance_metrics` (lines 101-141): each metric family is
guarded by its table's presence (`is not None`); an absent table
contributes no keys at all. -/
def metricsMap (p : Option PnLTable) (t : Option TradeTable) : List (String × MVal) :=
  (match p with | some P => pnlEntries P | none => []) ++
  (match t with | some T => tradeEntries T | none => [])

/-- `load_data`'s final guard (lines 69-73): the load succeeds iff at least
one of the three tables is present. -/
def loadOk (p : Option PnLTable) (t : Option TradeTable) (o : Option OrderBookTable) : Bool :=
  p.isSome || t.isSome || o.isSome

/-- Outcome of one `run_analysis` invocation (lines 299-329): the clean
early return when `load_data` reports no input (lines 304-306), an
unhandled exception escaping the pipeline, or normal completion with the
computed metrics map. -/
inductive RunOutcome where
  | aborted
  | crashed
  | completed (m : List (String × MVal))
  deriving DecidableEq, Repr

/-- `run_analysis` (lines 299-329): abort when `load_data` fails, otherwise
preprocess both tables and compute the metrics.  A present PnL table with
zero data rows survives loading and preprocessing but crashes inside
`calculate_performance_metrics`: `self.pnl_data['TotalPnL'].iloc[-1]`
(line 107) raises `IndexError` on an empty column before any metric is
recorded, and nothing catches it, so the run dies rather than completing.
(A present zero-row trade table does not crash: `len`, `sum`, `mean`,
`max`, `min` of an empty column give `0`/`NaN` under suppressed warnings.)
The chart renderers and the report writer consume the result without
altering it and are external collaborators per the specification's scope,
so a completed pipeline's outcome is its metrics map. -/
def runAnalysis (p : Option PnLTable) (t : Option TradeTable) (o : Option OrderBookTable) :
    RunOutcome :=
  if loadOk p t o then
    match p with
    | some P =>
      if (prePnL P).rows = [] then .crashed
      else .completed (metricsMap (some (prePnL P)) (t.map preTrade))
    | none => .completed (metricsMap none (t.map preTrade))
  else .aborted

/-- The trade-derived metric keys, as the specification enumerates them. -/
def tradeKeys : List String :=
  ["TotalTrades", "BuyTrades", "SellTrades", "TotalVolume", "AvgTradeSize",
   "AvgTradePrice", "PriceRange"]

/-- The PnL-derived metric keys, as the specification enumerates them. -/
def pnlKeys : List String :=
  ["TotalPnL", "MaxPnL", "MinPnL", "MaxDrawdown", "Volatility", "SharpeRatio"]

/-! ## Order lemmas for `FVal` -/

theorem Fle_trans {a b c : FVal} (hab : Fle a b = true) (hbc : Fle b c = true) :
    Fle a c = true := by
  cases a <;> cases b <;> cases c <;> simp_all [Fle]
  exact le_trans hab hbc

theorem Fle_refl_of_ne_nan {a : FVal} (h : a ≠ .nan) : Fle a a = true := by
  cases a <;> simp_all [Fle]

theorem ne_nan_of_Fle_left {a b : FVal} (h : Fle a b = true) : a ≠ .nan := by
  cases a <;> simp_all [Fle]

theorem Fmin_le_left {a : FVal} (b : FVal) (h : a ≠ .nan) : Fle (Fmin a b) a = true := by
  cases a <;> cases b <;> simp_all [Fmin, Fle]

theorem Fmin_le_right (a : FVal) {b : FVal} (h : b ≠ .nan) : Fle (Fmin a b) b = true := by
  cases a <;> cases b <;> simp_all [Fmin, Fle]

theorem minSkip_le_of_mem {l : List FVal} {e : FVal} (hm : e ∈ l) (hn : e ≠ .nan) :
    Fle (minSkip l) e = true := by
  induction l with
  | nil => cases hm
  | cons a xs ih =>
    rcases List.mem_cons.mp hm with rfl | hm'
    · exact Fmin_le_left _ hn
    · have h1 := ih hm'
      exact Fle_trans (Fmin_le_right a (ne_nan_of_Fle_left h1)) h1

/-- Every element is `NaN` or a nonnegative finite value. -/
def NonnegOrNaN (l : List FVal) : Prop :=
  ∀ e ∈ l, e = .nan ∨ ∃ q, 0 ≤ q ∧ e = .fin q

theorem minSkip_cons (a : FVal) (xs : List FVal) :
    minSkip (a :: xs) = Fmin a (minSkip xs) := rfl

theorem minSkip_shape {l : List FVal} (h : NonnegOrNaN l) :
    minSkip l = .nan ∨ ∃ q, 0 ≤ q ∧ minSkip l = .fin q := by
  induction l with
  | nil => exact Or.inl rfl
  | cons a xs ih =>
    have ha := h a (List.mem_cons_self a xs)
    have hxs := ih (fun e he => h e (List.mem_cons_of_mem a he))
    rw [minSkip_cons]
    rcases ha with rfl | ⟨q, hq, rfl⟩
    · rcases hxs with hx | ⟨p, hp, hx⟩
      · rw [hx]; exact Or.inl rfl
      · rw [hx]; exact Or.inr ⟨p, hp, rfl⟩
    · rcases hxs with hx | ⟨p, hp, hx⟩
      · rw [hx]; exact Or.inr ⟨q, hq, rfl⟩
      · rw [hx]; exact Or.inr ⟨min q p, le_min hq hp, rfl⟩

theorem minSkip_eq_fin0 {l : List FVal} (h : NonnegOrNaN l) (h0 : FVal.fin 0 ∈ l) :
    minSkip l = .fin 0 := by
  induction l with
  | nil => cases h0
  | cons a xs ih =>
    have hxs : NonnegOrNaN xs := fun e he => h e (List.mem_cons_of_mem a he)
    rw [minSkip_cons]
    rcases List.mem_cons.mp h0 with rfl | h0'
    · rcases minSkip_shape hxs with hx | ⟨p, hp, hx⟩
      · rw [hx]; rfl
      · rw [hx]; show FVal.fin (min 0 p) = FVal.fin 0
        rw [min_eq_left hp]
    · rw [ih hxs h0']
      rcases h a (List.mem_cons_self a xs) with rfl | ⟨q, hq, rfl⟩
      · rfl
      · show FVal.fin (min q 0) = FVal.fin 0
        rw [min_eq_right hq]

/-! ## Drawdown entry lemmas -/

theorem fdiv_of_ne {n d : ℚ} (h : d ≠ 0) : fdiv n d = .fin (n / d) := by
  simp [fdiv, h]

theorem fdiv_zero_left {d : ℚ} (h : d ≠ 0) : fdiv 0 d = .fin 0 := by
  rw [fdiv_of_ne h, zero_div]

theorem fdiv_zero_zero : fdiv 0 0 = .nan := rfl

theorem fdiv_neg_zero {n : ℚ} (h : n < 0) : fdiv n 0 = .minf := by
  simp [fdiv, ne_of_lt h, not_lt_of_lt h]

/-- Invariant of the drawdown recursion under a non-decreasing `TotalPnL`
column: every drawdown entry is `NaN` or a nonnegative finite value.
The state invariant is: `s ≤ m` (the running max dominates the running
sum), `m` can only be nonnegative if it equals the current sum, and once
the running max is nonnegative every remaining increment is nonnegative. -/
theorem ddAuxT_entries (xs : List ℚ) : ∀ s m : ℚ, List.Sorted (· ≤ ·) xs → s ≤ m →
    (0 ≤ m → m = s) → (0 ≤ m → ∀ y ∈ xs, 0 ≤ y) → NonnegOrNaN (ddAuxT s m xs) := by
  induction xs with
  | nil => intro s m _ _ _ _ e he; cases he
  | cons x xs ih =>
    intro s m hsort hsm hms hpos e he
    have hsort' : List.Sorted (· ≤ ·) xs := hsort.of_cons
    rcases le_or_lt m (s + x) with hle | hlt
    · -- the new sum is a new running max
      have hmax : max m (s + x) = s + x := max_eq_right hle
      have hrec : (0 ≤ s + x → ∀ y ∈ xs, 0 ≤ y) := by
        intro hsx y hy
        rcases le_or_lt 0 m with hm | hm
        · exact hpos hm y (List.mem_cons_of_mem x hy)
        · have hx : 0 < x := by linarith [le_trans hsm (le_of_lt hm)]
          exact le_trans (le_of_lt hx) ((List.sorted_cons.mp hsort).1 y hy)
      rcases List.mem_cons.mp (by simpa [ddAuxT, hmax] using he) with rfl | he'
      · rcases eq_or_ne (s + x) 0 with h0 | h0
        · exact Or.inl (by rw [h0]; rfl)
        · exact Or.inr ⟨0, le_refl 0, fdiv_zero_left h0⟩
      · exact ih (s + x) (s + x) hsort' (le_refl _) (fun _ => rfl) hrec e he'
    · -- the running max stays; it must be negative
      have hmax : max m (s + x) = m := max_eq_left (le_of_lt hlt)
      have hm0 : m < 0 := by
        by_contra hc
        push_neg at hc
        have h1 := hms hc
        have h2 := hpos hc x (List.mem_cons_self x xs)
        linarith
      rcases List.mem_cons.mp (by simpa [ddAuxT, hmax] using he) with rfl | he'
      · refine Or.inr ⟨(s + x - m) / m, ?_, fdiv_of_ne (ne_of_lt hm0)⟩
        exact div_nonneg_of_nonpos (by linarith) (le_of_lt hm0)
      · exact ih (s + x) m hsort' (le_of_lt hlt) (fun h => absurd h (not_le_of_lt hm0))
          (fun h => absurd h (not_le_of_lt hm0)) e he'

/-- Under a non-decreasing `TotalPnL` column every drawdown entry of the
cumulative series is `NaN` or a nonnegative finite value. -/
theorem ddOf_cumsum_entries {t : List ℚ} (hsort : List.Sorted (· ≤ ·) t) :
    NonnegOrNaN (ddOf (cumsum t)) := by
  cases t with
  | nil => intro e he; cases he
  | cons x xs =>
    rw [ddOf_cumsum_cons]
    intro e he
    rcases List.mem_cons.mp he with rfl | he'
    · rcases eq_or_ne x 0 with rfl | h0
      · exact Or.inl rfl
      · exact Or.inr ⟨0, le_refl 0, fdiv_zero_left h0⟩
    · have hpos : 0 ≤ x → ∀ y ∈ xs, 0 ≤ y := fun hx y hy =>
        le_trans hx ((List.sorted_cons.mp hsort).1 y hy)
      exact ddAuxT_entries xs x x hsort.of_cons (le_refl x) (fun _ => rfl) hpos e he'

/-- Starting from a nonnegative running sum that equals the running max,
with only nonnegative increments ahead and at least one of them nonzero,
the drawdown recursion produces a literal `fin 0` entry. -/
theorem ddAuxT_fin0 (xs : List ℚ) : ∀ s : ℚ, 0 ≤ s → (∀ y ∈ xs, 0 ≤ y) →
    (∃ y ∈ xs, y ≠ 0) → FVal.fin 0 ∈ ddAuxT s s xs := by
  induction xs with
  | nil => rintro s _ _ ⟨y, hy, _⟩; cases hy
  | cons x xs ih =>
    intro s hs hnn hex
    have hx : 0 ≤ x := hnn x (List.mem_cons_self x xs)
    have hmax : max s (s + x) = s + x := max_eq_right (by linarith)
    rcases eq_or_ne (s + x) 0 with h0 | h0
    · have hx0 : x = 0 := by
        have : s = 0 ∧ x = 0 := by constructor <;> linarith
        exact this.2
      have hs0 : s = 0 := by linarith
      rcases hex with ⟨y, hy, hyne⟩
      rcases List.mem_cons.mp hy with rfl | hy'
      · exact absurd hx0 hyne
      · have : FVal.fin 0 ∈ ddAuxT (s + x) (s + x) xs :=
          ih (s + x) (le_of_eq h0.symm) (fun y hy => hnn y (List.mem_cons_of_mem x hy))
            ⟨y, hy', hyne⟩
        simpa [ddAuxT, hmax] using Or.inr this
    · simp only [ddAuxT, hmax, sub_self, List.mem_cons]
      exact Or.inl (fdiv_zero_left h0).symm

/-- Under a non-decreasing, not-all-zero `TotalPnL` column the drawdown
series contains a literal `fin 0` entry. -/
theorem ddOf_cumsum_fin0 {t : List ℚ} (hsort : List.Sorted (· ≤ ·) t)
    (hex : ∃ x ∈ t, x ≠ 0) : FVal.fin 0 ∈ ddOf (cumsum t) := by
  cases t with
  | nil => rcases hex with ⟨x, hx, _⟩; cases hx
  | cons x xs =>
    rw [ddOf_cumsum_cons]
    rcases eq_or_ne x 0 with rfl | h0
    · have hnn : ∀ y ∈ xs, 0 ≤ y := fun y hy => (List.sorted_cons.mp hsort).1 y hy
      have hex' : ∃ y ∈ xs, y ≠ 0 := by
        rcases hex with ⟨y, hy, hyne⟩
        rcases List.mem_cons.mp hy with rfl | hy'
        · exact absurd rfl hyne
        · exact ⟨y, hy', hyne⟩
      exact List.mem_cons_of_mem _ (ddAuxT_fin0 xs 0 (le_refl 0) hnn hex')
    · exact List.mem_cons.mpr (Or.inl (fdiv_zero_left h0).symm)

/-- Without any monotonicity assumption, a not-all-zero `TotalPnL` column
always yields some non-NaN drawdown entry that is `≤ 0` in the IEEE order
(either a finite `0` or `-inf`). -/
theorem ddAuxT_exists_le0 (xs : List ℚ) (hex : ∃ y ∈ xs, y ≠ 0) :
    ∃ e ∈ ddAuxT 0 0 xs, e ≠ .nan ∧ Fle e (.fin 0) = true := by
  induction xs with
  | nil => rcases hex with ⟨y, hy, _⟩; cases hy
  | cons x xs ih =>
    rcases lt_trichotomy x 0 with hx | hx | hx
    · refine ⟨.minf, ?_, by simp, rfl⟩
      have hmax : (0 : ℚ) ⊔ x = 0 := max_eq_left (le_of_lt hx)
      simp only [ddAuxT, zero_add, hmax, List.mem_cons, sub_zero]
      exact Or.inl (fdiv_neg_zero hx).symm
    · subst hx
      have hex' : ∃ y ∈ xs, y ≠ 0 := by
        rcases hex with ⟨y, hy, hyne⟩
        rcases List.mem_cons.mp hy with rfl | hy'
        · exact absurd rfl hyne
        · exact ⟨y, hy', hyne⟩
      rcases ih hex' with ⟨e, he, hne, hle⟩
      refine ⟨e, ?_, hne, hle⟩
      simpa [ddAuxT] using Or.inr he
    · refine ⟨.fin 0, ?_, by simp, by simp [Fle]⟩
      have hmax : (0 : ℚ) ⊔ x = x := max_eq_right (le_of_lt hx)
      simp only [ddAuxT, zero_add, hmax, List.mem_cons, sub_self]
      exact Or.inl (fdiv_zero_left (ne_of_gt hx)).symm

/-- A not-all-zero `TotalPnL` column always yields some non-NaN drawdown
entry that is `≤ 0` in the IEEE order. -/
theorem ddOf_cumsum_exists_le0 {t : List ℚ} (hex : ∃ x ∈ t, x ≠ 0) :
    ∃ e ∈ ddOf (cumsum t), e ≠ .nan ∧ Fle e (.fin 0) = true := by
  cases t with
  | nil => rcases hex with ⟨x, hx, _⟩; cases hx
  | cons x xs =>
    rw [ddOf_cumsum_cons]
    rcases eq_or_ne x 0 with rfl | h0
    · have hex' : ∃ y ∈ xs, y ≠ 0 := by
        rcases hex with ⟨y, hy, hyne⟩
        rcases List.mem_cons.mp hy with rfl | hy'
        · exact absurd rfl hyne
        · exact ⟨y, hy', hyne⟩
      rcases ddAuxT_exists_le0 xs hex' with ⟨e, he, hne, hle⟩
      exact ⟨e, List.mem_cons_of_mem _ he, hne, hle⟩
    · exact ⟨.fin 0, List.mem_cons.mpr (Or.inl (fdiv_zero_left h0).symm), by simp,
        by simp [Fle]⟩

/-! ## Helper lemmas for the normalizer and column statistics -/

theorem sideMap_buy : sideMap (.str "BUY") = .num 1 := rfl

theorem sideMap_sell : sideMap (.str "SELL") = .num (-1) := rfl

theorem cumsumFrom_length (l : List ℚ) : ∀ s, (cumsumFrom s l).length = l.length := by
  induction l with
  | nil => intro s; rfl
  | cons x xs ih => intro s; simp [cumsumFrom, ih]

theorem map_total_zipWith (l : List PnLRow) : ∀ cs : List ℚ, l.length ≤ cs.length →
    (List.zipWith pnlUpd l cs).map (·.total) = l.map (·.total) := by
  induction l with
  | nil => intro cs _; rfl
  | cons r l ih =>
    intro cs hlen
    cases cs with
    | nil => simp at hlen
    | cons c cs =>
      simp only [List.zipWith_cons_cons, List.map_cons, pnlUpd]
      exact congrArg _ (ih cs (by simpa using hlen))

theorem zipWith_pnlUpd_idem (l : List PnLRow) : ∀ cs : List ℚ,
    List.zipWith pnlUpd (List.zipWith pnlUpd l cs) cs = List.zipWith pnlUpd l cs := by
  induction l with
  | nil => intro cs; rfl
  | cons r l ih =>
    intro cs
    cases cs with
    | nil => rfl
    | cons c cs =>
      simp only [List.zipWith_cons_cons, ih]
      rfl

theorem getLastD_mem : ∀ (l : List ℚ), l ≠ [] → ∀ d : ℚ, l.getLastD d ∈ l := by
  intro l
  induction l with
  | nil => intro h; exact absurd rfl h
  | cons a l ih =>
    intro _ d
    rw [List.getLastD_cons]
    cases l with
    | nil => exact List.mem_cons_self a []
    | cons b l => exact List.mem_cons_of_mem a (ih (by simp) a)

theorem le_foldl_max (l : List ℚ) : ∀ a x, (x = a ∨ x ∈ l) → x ≤ l.foldl max a := by
  induction l with
  | nil =>
    rintro a x (rfl | h)
    · exact le_refl x
    · cases h
  | cons b l ih =>
    rintro a x (rfl | hx)
    · exact le_trans (le_max_left x b) (ih (max x b) _ (Or.inl rfl))
    · rcases List.mem_cons.mp hx with rfl | hx'
      · exact le_trans (le_max_right a x) (ih (max a x) _ (Or.inl rfl))
      · exact ih (max a b) x (Or.inr hx')

theorem foldl_min_le (l : List ℚ) : ∀ a x, (x = a ∨ x ∈ l) → l.foldl min a ≤ x := by
  induction l with
  | nil =>
    rintro a x (rfl | h)
    · exact le_refl x
    · cases h
  | cons b l ih =>
    rintro a x (rfl | hx)
    · exact le_trans (ih (min x b) _ (Or.inl rfl)) (min_le_left x b)
    · rcases List.mem_cons.mp hx with rfl | hx'
      · exact le_trans (ih (min a x) _ (Or.inl rfl)) (min_le_right a x)
      · exact ih (min a b) x (Or.inr hx')

theorem mem_le_maxQ {l : List ℚ} {x : ℚ} (h : x ∈ l) : x ≤ maxQ l := by
  cases l with
  | nil => cases h
  | cons a l =>
    rcases List.mem_cons.mp h with h' | h'
    · exact le_foldl_max l a x (Or.inl h')
    · exact le_foldl_max l a x (Or.inr h')

theorem minQ_le_mem {l : List ℚ} {x : ℚ} (h : x ∈ l) : minQ l ≤ x := by
  cases l with
  | nil => cases h
  | cons a l =>
    rcases List.mem_cons.mp h with h' | h'
    · exact foldl_min_le l a x (Or.inl h')
    · exact foldl_min_le l a x (Or.inr h')

theorem count_sides_aux (rows : List TradeRow)
    (h : ∀ r ∈ rows, r.side = .str "BUY" ∨ r.side = .str "SELL") :
    rows.length =
      (rows.map tradeUpd).countP (fun r => decide (r.side = SideVal.num 1)) +
        (rows.map tradeUpd).countP (fun r => decide (r.side = SideVal.num (-1))) := by
  induction rows with
  | nil => rfl
  | cons r rows ih =>
    have ih' := ih (fun x hx => h x (List.mem_cons_of_mem r hx))
    rcases h r (List.mem_cons_self r rows) with hb | hb <;>
      simp [List.countP_cons, tradeUpd, hb, sideMap_buy, sideMap_sell, ih'] <;>
      omega

/-! ## Percentage-change lemmas for volatility and Sharpe -/

theorem map_pcF_of_ne (ps : List (ℚ × ℚ)) (h : ∀ p ∈ ps, p.1 ≠ 0) :
    ps.map pcF = (ps.filterMap pcDef).map FVal.fin := by
  induction ps with
  | nil => rfl
  | cons p ps ih =>
    have hp := h p (List.mem_cons_self p ps)
    simp only [List.map_cons, List.filterMap_cons, pcDef, if_neg hp, pcF, fdiv_of_ne hp]
    exact congrArg _ (ih fun q hq => h q (List.mem_cons_of_mem p hq))

theorem filter_ne_nan_map_fin (l : List ℚ) :
    (l.map FVal.fin).filter (fun e => e ≠ .nan) = l.map FVal.fin := by
  rw [List.filter_eq_self]
  intro a ha
  rcases List.mem_map.mp ha with ⟨q, _, rfl⟩
  simp

theorem finVals_map_fin (l : List ℚ) : finVals (l.map FVal.fin) = l := by
  induction l with
  | nil => rfl
  | cons q l ih =>
    simp only [finVals, List.map_cons, List.filterMap_cons] at ih ⊢
    rw [ih]

theorem hasInf_map_fin (l : List ℚ) : hasInf (l.map FVal.fin) = false := by
  simp [hasInf]

/-- Filtering and infinity-detection helpers, one per head constructor. -/
theorem filter_nan_cons (l : List FVal) :
    (FVal.nan :: l).filter (fun e => e ≠ .nan) = l.filter (fun e => e ≠ .nan) := by simp

theorem filter_fin_cons (q : ℚ) (l : List FVal) :
    (FVal.fin q :: l).filter (fun e => e ≠ .nan) = .fin q :: l.filter (fun e => e ≠ .nan) := by
  simp

theorem filter_pinf_cons (l : List FVal) :
    (FVal.pinf :: l).filter (fun e => e ≠ .nan) = .pinf :: l.filter (fun e => e ≠ .nan) := by
  simp

theorem filter_minf_cons (l : List FVal) :
    (FVal.minf :: l).filter (fun e => e ≠ .nan) = .minf :: l.filter (fun e => e ≠ .nan) := by
  simp

theorem hasInf_cons_fin (q : ℚ) (l : List FVal) : hasInf (.fin q :: l) = hasInf l := by
  simp [hasInf]

theorem hasInf_cons_pinf (l : List FVal) : hasInf (.pinf :: l) = true := by simp [hasInf]

theorem hasInf_cons_minf (l : List FVal) : hasInf (.minf :: l) = true := by simp [hasInf]

theorem finVals_fin_cons (q : ℚ) (l : List FVal) : finVals (.fin q :: l) = q :: finVals l := by
  simp [finVals]

/-- Shape of one percentage-change entry whose prior value is zero but whose
numerator is not: an infinity. -/
theorem pcF_inf_of_zero {p : ℚ × ℚ} (hp : p.1 = 0) (hc : p.2 - p.1 ≠ 0) :
    pcF p = .pinf ∨ pcF p = .minf := by
  have h2 : p.2 ≠ 0 := by rwa [hp, sub_zero] at hc
  rcases lt_or_gt_of_ne h2 with hlt | hgt
  · exact Or.inr (by simp [pcF, fdiv, hp, h2, not_lt_of_lt hlt])
  · exact Or.inl (by simp [pcF, fdiv, hp, h2, hgt])

theorem pcF_nan_of_zero {p : ℚ × ℚ} (hp : p.1 = 0) (hc : p.2 - p.1 = 0) :
    pcF p = .nan := by
  have h2 : p.2 = 0 := by rwa [hp, sub_zero] at hc
  simp [pcF, fdiv, hp, h2]

/-- When the filtered percentage changes contain no infinity, their finite
values are exactly the spec's defined percentage changes. -/
theorem finVals_filter_of_no_inf (ps : List (ℚ × ℚ))
    (h : hasInf ((ps.map pcF).filter (fun e => e ≠ .nan)) = false) :
    finVals ((ps.map pcF).filter (fun e => e ≠ .nan)) = ps.filterMap pcDef := by
  induction ps with
  | nil => rfl
  | cons p ps ih =>
    by_cases hp : p.1 = 0
    · by_cases hc : p.2 - p.1 = 0
      · rw [List.map_cons, pcF_nan_of_zero hp hc, filter_nan_cons] at h ⊢
        rw [List.filterMap_cons, show pcDef p = none from by simp [pcDef, hp]]
        exact ih h
      · exfalso
        rcases pcF_inf_of_zero hp hc with hs | hs
        · rw [List.map_cons, hs, filter_pinf_cons, hasInf_cons_pinf] at h
          cases h
        · rw [List.map_cons, hs, filter_minf_cons, hasInf_cons_minf] at h
          cases h
    · have hfin : pcF p = .fin ((p.2 - p.1) / p.1) := fdiv_of_ne hp
      rw [List.map_cons, hfin, filter_fin_cons] at h ⊢
      rw [hasInf_cons_fin] at h
      rw [finVals_fin_cons, List.filterMap_cons,
        show pcDef p = some ((p.2 - p.1) / p.1) from by simp [pcDef, hp]]
      rw [ih h]

/-! ## Volatility and Sharpe claims -/

/-- Claim C1 (amended): when every `total_pnl` value is nonzero and the
table has at least three rows (hence at least two defined percentage
changes), the computed `Volatility` agrees with the specification's value —
the sample standard deviation of the defined percentage changes annualized
by `sqrt 252` (both sides in the `fin v = sqrt (252 * v)` encoding).
Outside these hypotheses the code diverges from the claim: with fewer than
two defined changes the metric is `NaN`, not `0`, and a zero prior value
with a nonzero current value leaves `±inf` in the statistic, making it
`NaN` (see the counterexample). -/
theorem volatility_matches_spec (t : List ℚ) (h1 : ∀ x ∈ t, x ≠ 0) (h2 : 3 ≤ t.length) :
    volE t = specVolE t := by
  have hps : ∀ p ∈ pairsOf t, p.1 ≠ 0 := fun p hp => h1 p.1 (List.of_mem_zip hp).1
  have hmap : pctChanges t = (definedPcts t).map FVal.fin := map_pcF_of_ne (pairsOf t) hps
  have hret : returnsOf t = (definedPcts t).map FVal.fin := by
    rw [returnsOf, hmap, filter_ne_nan_map_fin]
  have hlen1 : (pctChanges t).length = (definedPcts t).length := by
    rw [hmap, List.length_map]
  have hlen2 : (pctChanges t).length = t.length - 1 := by
    rw [pctChanges, List.length_map, pairsOf, List.length_zip, List.length_tail]
    exact min_eq_right (Nat.sub_le _ _)
  have h2' : ¬(definedPcts t).length < 2 := by omega
  have hv : volE t = .fin (sampleVar (definedPcts t)) := by
    simp only [volE, hret, hasInf_map_fin, finVals_map_fin]
    simp [h2']
  have hs : specVolE t = .fin (sampleVar (definedPcts t)) := by
    simp only [specVolE]
    rw [if_pos (by omega : 2 ≤ (definedPcts t).length)]
  rw [hv, hs]

/-- Witness for the amended C1 at the concrete column `[1, 2, 4]`. -/
theorem volatility_matches_spec_witness :
    (∀ x ∈ [(1 : ℚ), 2, 4], x ≠ 0) ∧ 3 ≤ ([(1 : ℚ), 2, 4]).length ∧
      volE [(1 : ℚ), 2, 4] = specVolE [(1 : ℚ), 2, 4] :=
  ⟨by decide, by decide, volatility_matches_spec [(1 : ℚ), 2, 4] (by decide) (by decide)⟩

/-- Counterexample to C1 as stated: a single-row table has no defined
percentage change, so the claim says `Volatility = 0`; the code computes
the sample standard deviation of an empty series, which is `NaN`. -/
theorem volatility_claim_counterexample :
    volE [(100 : ℚ)] = .nan ∧ specVolE [(100 : ℚ)] = .fin 0 := by
  exact ⟨rfl, rfl⟩

/-- Claim C8: the Sharpe ratio is `(mean of the defined percentage changes
* 252) / Volatility` whenever the computed volatility is positive, and the
literal `0` otherwise (including a `NaN` volatility, whose `> 0` comparison
is false).  In the positive branch the code's `returns.mean()` coincides
with the spec's mean over defined changes, because a positive finite
volatility excludes both `NaN` (dropped) and `±inf` (would poison the
standard deviation) entries. -/
theorem sharpe_matches_spec (t : List ℚ) (h : t ≠ []) : sharpeE t = specSharpeE t := by
  cases hv : volE t with
  | fin v =>
    simp only [sharpeE, specSharpeE, hv]
    by_cases hvp : 0 < v
    · rw [if_pos hvp, if_pos hvp]
      have hinf : hasInf (returnsOf t) = false := by
        cases hb : hasInf (returnsOf t)
        · rfl
        · simp [volE, hb] at hv
      have heq : finVals (returnsOf t) = definedPcts t :=
        finVals_filter_of_no_inf (pairsOf t) hinf
      rw [heq]
    · rw [if_neg hvp, if_neg hvp]
  | pinf => simp only [sharpeE, specSharpeE, hv]
  | minf => simp only [sharpeE, specSharpeE, hv]
  | nan => simp only [sharpeE, specSharpeE, hv]

/-- Witness for C8 at the Scenario A column, where the volatility is
positive and the ratio branch is taken. -/
theorem sharpe_matches_spec_witness :
    sharpeE [(100 : ℚ), 150, 90] = specSharpeE [(100 : ℚ), 150, 90] :=
  sharpe_matches_spec [(100 : ℚ), 150, 90] (by decide)

/-! ## Demonstration tables used as concrete witnesses -/

/-- The PnL table of the specification's Scenario A. -/
def scenarioATable : PnLTable :=
  { hasTsCol := true
    indexed := false
    rows := [⟨100, some 100, none⟩, ⟨150, some 50, none⟩, ⟨90, some (-60), none⟩] }

/-- A small well-formed trade table (one BUY, one SELL). -/
def demoTradeTable : TradeTable :=
  { hasTsCol := false
    indexed := false
    rows := [⟨10, 5, .str "BUY", none⟩, ⟨21 / 2, 3, .str "SELL", none⟩] }

/-- A small PnL table with two rows. -/
def demoPnLTable : PnLTable :=
  { hasTsCol := false
    indexed := false
    rows := [⟨5, none, none⟩, ⟨2, none, none⟩] }

/-! ## The claims -/

/-- Claim C2 (code bug in the source): when the running maximum of the
cumulative PnL is zero at some index, the drawdown division is NOT guarded:
for the `TotalPnL` column `[0, -5]` the running max is `0` at both indices
and `MaxDrawdown` evaluates to `-inf`; for the column `[0]` it evaluates to
`NaN`.  The division-by-zero result propagates into the metric instead of
the defined finite policy the specification requires. -/
theorem maxDrawdown_zero_peak_propagates :
    maxDrawdownT [(0 : ℚ), -5] = .minf ∧ maxDrawdownT [(0 : ℚ)] = .nan := by
  with_unfolding_all decide

/-- Claim C3 (amended): for every PnL table whose `TotalPnL` column is not
identically zero, `MaxDrawdown ≤ 0` in the IEEE order (the value is a
nonpositive finite rational or `-inf`), and `MaxDrawdown = 0` whenever the
column is monotonically non-decreasing.  (For an identically-zero column
the metric is `NaN`, on which both parts of the original claim fail.) -/
theorem maxDrawdown_nonpos_of_not_all_zero (t : List ℚ) (hex : ∃ x ∈ t, x ≠ 0) :
    Fle (maxDrawdownT t) (.fin 0) = true ∧
      (List.Sorted (· ≤ ·) t → maxDrawdownT t = .fin 0) := by
  constructor
  · rcases ddOf_cumsum_exists_le0 hex with ⟨e, he, hne, hle⟩
    exact Fle_trans (minSkip_le_of_mem he hne) hle
  · intro hsort
    exact minSkip_eq_fin0 (ddOf_cumsum_entries hsort) (ddOf_cumsum_fin0 hsort hex)

/-- Witness for the amended C3 at the concrete non-decreasing column
`[1, 2]`. -/
theorem maxDrawdown_nonpos_witness :
    Fle (maxDrawdownT [(1 : ℚ), 2]) (.fin 0) = true ∧ maxDrawdownT [(1 : ℚ), 2] = .fin 0 :=
  ⟨(maxDrawdown_nonpos_of_not_all_zero [(1 : ℚ), 2] ⟨1, by decide, by decide⟩).1,
   (maxDrawdown_nonpos_of_not_all_zero [(1 : ℚ), 2] ⟨1, by decide, by decide⟩).2 (by decide)⟩

/-- Counterexample to C3 as stated: the one-row all-zero PnL column is
monotonically non-decreasing, yet `MaxDrawdown` is `NaN`, which is neither
`≤ 0` nor `= 0`. -/
theorem maxDrawdown_claim_counterexample :
    List.Sorted (· ≤ ·) [(0 : ℚ)] ∧ Fle (maxDrawdownT [(0 : ℚ)]) (.fin 0) = false ∧
      maxDrawdownT [(0 : ℚ)] ≠ .fin 0 := by
  refine ⟨by decide, by with_unfolding_all decide, by with_unfolding_all decide⟩

/-- Preprocessing preserves emptiness and non-emptiness of the PnL rows. -/
theorem prePnL_rows_ne_nil {P : PnLTable} (h : P.rows ≠ []) : (prePnL P).rows ≠ [] := by
  cases hr : P.rows with
  | nil => exact absurd hr h
  | cons r l => simp [prePnL, hr, cumsum, cumsumFrom]

theorem prePnL_rows_nil {P : PnLTable} (h : P.rows = []) : (prePnL P).rows = [] := by
  simp [prePnL, h]

/-- A present PnL source whose table has a header but zero data rows. -/
def emptyPnLTable : PnLTable :=
  { hasTsCol := false, indexed := false, rows := [] }

/-- Claim C6 (amended): the run aborts (before preprocessing and metric
computation) exactly when none of the three table kinds has a source.
When at least one source is present the run completes with its (possibly
degraded) metrics map — unless the PnL source is present with zero data
rows, in which case the run crashes with an unhandled `IndexError` at the
`iloc[-1]` access of line 107 instead of completing. -/
theorem runAnalysis_abort_and_completion (p : Option PnLTable) (t : Option TradeTable)
    (o : Option OrderBookTable) :
    (runAnalysis p t o = .aborted ↔ p = none ∧ t = none ∧ o = none) ∧
      (∀ P, p = some P → P.rows ≠ [] → runAnalysis p t o =
        .completed (metricsMap (some (prePnL P)) (t.map preTrade))) ∧
      (∀ P, p = some P → P.rows = [] → runAnalysis p t o = .crashed) ∧
      (p = none → t.isSome ∨ o.isSome → runAnalysis p t o =
        .completed (metricsMap none (t.map preTrade))) := by
  refine ⟨?_, ?_, ?_, ?_⟩
  · cases p with
    | none => cases t <;> cases o <;> simp [runAnalysis, loadOk]
    | some P =>
      simp only [runAnalysis, loadOk, Option.isSome_some, Bool.true_or, if_true]
      constructor
      · intro h
        split at h <;> cases h
      · rintro ⟨h, -, -⟩
        cases h
  · intro P hp hne
    subst hp
    simp only [runAnalysis, loadOk, Option.isSome_some, Bool.true_or, if_true]
    rw [if_neg (prePnL_rows_ne_nil hne)]
  · intro P hp he
    subst hp
    simp only [runAnalysis, loadOk, Option.isSome_some, Bool.true_or, if_true]
    rw [if_pos (prePnL_rows_nil he)]
  · intro hp hto
    subst hp
    have hok : loadOk none t o = true := by
      rcases hto with h | h <;> simp [loadOk, h]
    simp only [runAnalysis, hok, if_true]

/-- Witness for the amended C6: a present non-empty PnL source (alone)
completes with the PnL metrics, and a present trade source (alone, PnL
absent) completes with the trade metrics. -/
theorem runAnalysis_abort_and_completion_witness :
    runAnalysis (some demoPnLTable) none none =
        .completed (metricsMap (some (prePnL demoPnLTable)) none) ∧
      runAnalysis none (some demoTradeTable) none =
        .completed (metricsMap none (some (preTrade demoTradeTable))) :=
  ⟨(runAnalysis_abort_and_completion (some demoPnLTable) none none).2.1
      demoPnLTable rfl (by decide),
   (runAnalysis_abort_and_completion none (some demoTradeTable) none).2.2.2
      rfl (Or.inl rfl)⟩

/-- Counterexample to C6 as stated: the PnL source is present (the load
guard passes, so the run is not aborted), yet the run does not terminate
successfully — the zero-row table crashes the Metrics Engine at the
`iloc[-1]` access of line 107. -/
theorem runAnalysis_empty_pnl_counterexample :
    (some emptyPnLTable).isSome = true ∧
      runAnalysis (some emptyPnLTable) none none = .crashed := ⟨rfl, rfl⟩

/-- Claim C5: an absent trade table contributes none of the trade-derived
keys to the metrics map, and an absent PnL table contributes none of the
PnL-derived keys — no placeholder values are substituted. -/
theorem metrics_absent_when_table_absent (p : Option PnLTable) (t : Option TradeTable) :
    (t = none → ∀ k ∈ tradeKeys, k ∉ (metricsMap p t).map Prod.fst) ∧
      (p = none → ∀ k ∈ pnlKeys, k ∉ (metricsMap p t).map Prod.fst) := by
  constructor
  · rintro rfl k hk
    cases p with
    | none => simp [metricsMap]
    | some P =>
      have hkeys : (metricsMap (some P) none).map Prod.fst = pnlKeys := rfl
      rw [hkeys]
      exact (by decide : ∀ k ∈ tradeKeys, k ∉ pnlKeys) k hk
  · rintro rfl k hk
    cases t with
    | none => simp [metricsMap]
    | some T =>
      have hkeys : (metricsMap none (some T)).map Prod.fst = tradeKeys := rfl
      rw [hkeys]
      exact (by decide : ∀ k ∈ pnlKeys, k ∉ tradeKeys) k hk

/-- Witness for C5 at concrete tables: a missing trade table leaves no
`TotalTrades` key, a missing PnL table leaves no `TotalPnL` key. -/
theorem metrics_absent_witness :
    "TotalTrades" ∈ tradeKeys ∧
      "TotalTrades" ∉ (metricsMap (some scenarioATable) none).map Prod.fst ∧
      "TotalPnL" ∈ pnlKeys ∧
      "TotalPnL" ∉ (metricsMap none (some demoTradeTable)).map Prod.fst :=
  ⟨by decide,
   (metrics_absent_when_table_absent (some scenarioATable) none).1 rfl _ (by decide),
   by decide,
   (metrics_absent_when_table_absent none (some demoTradeTable)).2 rfl _ (by decide)⟩

/-- Claim C7: on Scenario A's PnL rows the pipeline derives the cumulative
column `[100, 250, 340]` as the running sum of `TotalPnL`, and reports
`TotalPnL = 90` (last row), `MaxPnL = 150`, `MinPnL = 90`, with
`MaxDrawdown` computed on exactly that cumulative series. -/
theorem scenarioA_pipeline :
    (prePnL scenarioATable).rows.map (·.cum) = [some 100, some 250, some 340] ∧
      (metricsMap (some (prePnL scenarioATable)) none).lookup "TotalPnL" =
        some (.vF (.fin 90)) ∧
      (metricsMap (some (prePnL scenarioATable)) none).lookup "MaxPnL" =
        some (.vF (.fin 150)) ∧
      (metricsMap (some (prePnL scenarioATable)) none).lookup "MinPnL" =
        some (.vF (.fin 90)) ∧
      (metricsMap (some (prePnL scenarioATable)) none).lookup "MaxDrawdown" =
        some (.vF (minSkip (ddOf [100, 250, 340]))) := by
  with_unfolding_all decide

/-- Claim C9 (amended): preprocessing is idempotent on the PnL table
(cumulative sums and `fillna` are stable under a second application). -/
theorem prePnL_idempotent (P : PnLTable) : prePnL (prePnL P) = prePnL P := by
  have hlen : P.rows.length ≤ (cumsum (P.rows.map (·.total))).length := by
    rw [cumsum, cumsumFrom_length, List.length_map]
  simp only [prePnL, Bool.or_false, PnLTable.mk.injEq, true_and]
  rw [map_total_zipWith P.rows (cumsum (P.rows.map (·.total))) hlen]
  exact zipWith_pnlUpd_idem P.rows (cumsum (P.rows.map (·.total)))

/-- Counterexample to C9 as stated: a second application of trade
preprocessing maps the numeric `Side` values produced by the first
application through the BUY/SELL dictionary again, turning them into
missing values, so the normalizer is not idempotent on trade tables. -/
theorem preTrade_not_idempotent :
    preTrade (preTrade demoTradeTable) ≠ preTrade demoTradeTable := by
  with_unfolding_all decide

/-- Claim C10: for a nonempty PnL table, `MinPnL ≤ TotalPnL ≤ MaxPnL`,
because `TotalPnL` is the last element of the column whose min and max the
other two metrics take. -/
theorem minPnL_le_totalPnL_le_maxPnL (P : PnLTable) (h : P.rows ≠ []) :
    minQ (totalColumn P) ≤ lastQ (totalColumn P) ∧
      lastQ (totalColumn P) ≤ maxQ (totalColumn P) := by
  have hne : totalColumn P ≠ [] := by
    intro hc
    exact h (List.map_eq_nil_iff.mp hc)
  have hm : lastQ (totalColumn P) ∈ totalColumn P := getLastD_mem _ hne 0
  exact ⟨minQ_le_mem hm, mem_le_maxQ hm⟩

/-- Witness for C10 at a concrete two-row PnL table. -/
theorem minPnL_le_totalPnL_le_maxPnL_witness :
    minQ (totalColumn demoPnLTable) ≤ lastQ (totalColumn demoPnLTable) ∧
      lastQ (totalColumn demoPnLTable) ≤ maxQ (totalColumn demoPnLTable) :=
  minPnL_le_totalPnL_le_maxPnL demoPnLTable (by decide)

/-- Claim C4: for every nonempty trade table whose `Side` values are the
recognized `BUY`/`SELL` strings, the pipeline's `TotalTrades` equals
`BuyTrades + SellTrades` (counts of `signed_side` `+1` and `-1`). -/
theorem totalTrades_eq_buy_add_sell (T : TradeTable) (h₀ : T.rows ≠ [])
    (h : ∀ r ∈ T.rows, r.side = .str "BUY" ∨ r.side = .str "SELL") :
    totalTrades (preTrade T) = buyTrades (preTrade T) + sellTrades (preTrade T) := by
  simpa [totalTrades, buyTrades, sellTrades, preTrade, List.length_map] using
    count_sides_aux T.rows h

/-- Witness for C4 at a concrete BUY/SELL trade table. -/
theorem totalTrades_eq_buy_add_sell_witness :
    totalTrades (preTrade demoTradeTable) =
      buyTrades (preTrade demoTradeTable) + sellTrades (preTrade demoTradeTable) :=
  totalTrades_eq_buy_add_sell demoTradeTable (by decide) (by decide)

end DAVINCI
